import Mathlib

/-!
# Verification of the voice-prompt client

Shallow embedding of the repository's client code
(`src/client/pcm-worklet.js` and `src/client/main.js`) together with
proofs about the properties its specification states.

Numeric conventions: JS numbers are embedded as exact rationals (`ℚ`)
where the code computes with fractional values, `Int16Array` cells as
`ℤ`, and byte payloads as opaque `ℕ` tokens.  JS `Map` objects are
embedded as association lists in insertion order with unique keys.
-/

set_option maxHeartbeats 1000000
set_option linter.unusedVariables false

namespace VoicePrompt

/-! ## `src/client/pcm-worklet.js` — resampler

`resample(frame)` from `PCMWorkletProcessor`.  The local `lastSample`
of the source is assigned `sample` immediately before each use, so each
output cell is the clamped, scaled interpolant; the function reads no
state other than its argument.  Assignment of the clamped float to an
`Int16Array` cell truncates toward zero (the value is within int16
range, so no wrapping occurs). -/

/-- Truncation toward zero, as JS `ToInt16` behaves on in-range values. -/
def truncQ (q : ℚ) : ℤ :=
  if 0 ≤ q then ⌊q⌋ else ⌈q⌉

/-- `Math.max(-1, Math.min(1, x))`. -/
def clampUnit (x : ℚ) : ℚ := max (-1) (min 1 x)

/-- Embedding of `resample` (pcm-worklet.js lines 21–36). -/
def resample (targetRate nativeRate : ℕ) (frame : List ℚ) : List ℤ :=
  let ratio : ℚ := (targetRate : ℚ) / (nativeRate : ℚ)
  let length : ℕ := (⌊(frame.length : ℚ) * ratio⌋).toNat
  (List.range length).map (fun (i : ℕ) =>
    let index : ℚ := (i : ℚ) / ratio
    let i0 : ℕ := (⌊index⌋).toNat
    let i1 : ℕ := min (i0 + 1) (frame.length - 1)
    let frac : ℚ := index - (i0 : ℚ)
    let sample : ℚ := frame.getD i0 0 + (frame.getD i1 0 - frame.getD i0 0) * frac
    truncQ (clampUnit sample * 0x7fff))

lemma resample_length (t n : ℕ) (f : List ℚ) (hn : 0 < n) :
    (resample t n f).length = f.length * t / n := by
  have hcast : (f.length : ℚ) * ((t : ℚ) / (n : ℚ)) =
      ((f.length * t : ℕ) : ℚ) / ((n : ℕ) : ℚ) := by
    push_cast
    ring
  simp only [resample, List.length_map, List.length_range]
  rw [hcast, Int.floor_toNat, Nat.floor_div_nat, Nat.floor_natCast]

/-- C4: a single `resample` call on an input block of length `L`, with target
rate `t` and native rate `n` (ratio `r = t/n`), produces exactly `⌊L·r⌋`
output samples; over naturals this floor is exactly `L * t / n`. -/
theorem C4_resample_output_length (t n : ℕ) (frame : List ℚ) (hn : 0 < n) :
    (resample t n frame).length = frame.length * t / n :=
  resample_length t n frame hn

/-- Witness for C4 at `L = 7`, `t = 16000`, `n = 48000`. -/
theorem C4_resample_output_length_witness :
    0 < 48000 ∧
      (resample 16000 48000 (List.replicate 7 0)).length = 7 * 16000 / 48000 :=
  ⟨by decide, C4_resample_output_length 16000 48000 (List.replicate 7 0) (by decide)⟩

/-- C3 counterexample: `resample` keeps no state between invocations (the
source's `lastSample` is local and is overwritten before every use), so
resampling a concatenation is *not* the concatenation of the two calls'
outputs.  With ratio `1/2`, two one-sample blocks each produce no output,
while the concatenated two-sample block produces one sample. -/
theorem C3_counterexample :
    resample 1 2 [1, 0] ≠ resample 1 2 [1] ++ resample 1 2 [0] := by
  have h1 : resample 1 2 [1] = [] := by
    unfold resample
    norm_num
  have h0 : resample 1 2 [0] = [] := by
    unfold resample
    norm_num
  have h10 : resample 1 2 [1, 0] = [32767] := by
    unfold resample
    norm_num [truncQ, clampUnit, List.range_succ]
  rw [h1, h0, h10]
  decide

/-- C3 amended: no trailing source sample is carried across invocations;
each call interpolates only within its own block, so splitting the input
into blocks can only lose samples at the boundary (output length is
superadditive), and the concatenated outputs in general differ from
resampling the concatenated input. -/
theorem C3_amended_stateless_superadditive (t n : ℕ) (a b : List ℚ) (hn : 0 < n) :
    (resample t n a).length + (resample t n b).length ≤
      (resample t n (a ++ b)).length := by
  rw [resample_length t n a hn, resample_length t n b hn,
    resample_length t n (a ++ b) hn, List.length_append]
  have hmul : (a.length + b.length) * t = a.length * t + b.length * t := by ring
  rw [hmul]
  refine (Nat.le_div_iff_mul_le hn).mpr ?_
  have hdistrib : (a.length * t / n + b.length * t / n) * n =
      a.length * t / n * n + b.length * t / n * n := by ring
  rw [hdistrib]
  exact Nat.add_le_add (Nat.div_mul_le_self _ _) (Nat.div_mul_le_self _ _)

/-- Witness for the amended C3 at the counterexample's blocks. -/
theorem C3_amended_witness :
    0 < 2 ∧
      (resample 1 2 [1]).length + (resample 1 2 [0]).length ≤
        (resample 1 2 [1, 0]).length :=
  ⟨by decide, C3_amended_stateless_superadditive 1 2 [1] [0] (by decide)⟩

/-! ## `src/client/pcm-worklet.js` — framer

State of `PCMWorkletProcessor`'s buffering: the `Int16Array` buffer
(a list whose length is the capacity), the `writePos` cursor, and a
ghost log `emitted` of every frame posted through the worklet port. -/

structure Framer where
  chunkSamples : ℕ
  buffer : List ℤ
  writePos : ℕ
  emitted : List (List ℤ)

/-- The constructor (pcm-worklet.js lines 2–10): `chunkSamples =
Math.floor(targetSampleRate * chunkMs / 1000)`, buffer capacity
`chunkSamples * 4`, `writePos = 0`. -/
def mkProcessor (targetSampleRate chunkMs : ℕ) : Framer :=
  { chunkSamples := targetSampleRate * chunkMs / 1000
    buffer := List.replicate (targetSampleRate * chunkMs / 1000 * 4) 0
    writePos := 0
    emitted := [] }

/-- `ensureCapacity` (lines 51–56): grow to `(length + additional) * 2`
(zero-filled, old live region copied) when the write would overflow. -/
def ensureCapacity (s : Framer) (additional : ℕ) : Framer :=
  if s.writePos + additional ≤ s.buffer.length then s
  else
    { s with
      buffer := s.buffer.take s.writePos ++
        List.replicate ((s.buffer.length + additional) * 2 - s.writePos) 0 }

/-- One iteration of the `while` loop in `enqueue` (lines 42–48): slice a
frame off the head, compact the remainder to the front, emit the frame. -/
def emitFrame (s : Framer) : Framer :=
  { s with
    buffer := (s.buffer.drop s.chunkSamples).take (s.writePos - s.chunkSamples) ++
      s.buffer.drop (s.writePos - s.chunkSamples)
    writePos := s.writePos - s.chunkSamples
    emitted := s.emitted ++ [s.buffer.take s.chunkSamples] }

/-- The `while (writePos >= chunkSamples)` loop.  Each iteration lowers
`writePos` by `chunkSamples` (positive in every configuration the
worklet constructs), so `writePos` iterations of fuel always suffice. -/
def drainFrames : ℕ → Framer → Framer
  | 0, s => s
  | fuel + 1, s =>
      if s.chunkSamples ≤ s.writePos then drainFrames fuel (emitFrame s) else s

/-- `enqueue` (lines 38–49). -/
def enqueue (s : Framer) (samples : List ℤ) : Framer :=
  let s1 := ensureCapacity s samples.length
  let s2 := { s1 with
    buffer := s1.buffer.take s1.writePos ++ samples ++
      s1.buffer.drop (s1.writePos + samples.length)
    writePos := s1.writePos + samples.length }
  drainFrames s2.writePos s2

/-- The live (not yet emitted) samples of the buffer. -/
def Framer.pending (s : Framer) : List ℤ := s.buffer.take s.writePos

/-- All samples the framer has accounted for: emitted frames then the
buffered remainder. -/
def Framer.content (s : Framer) : List ℤ := s.emitted.flatten ++ s.pending

/-- Well-formedness: the write cursor never exceeds the capacity. -/
def Framer.Wf (s : Framer) : Prop := s.writePos ≤ s.buffer.length

lemma ensureCapacity_writePos (s : Framer) (a : ℕ) :
    (ensureCapacity s a).writePos = s.writePos := by
  unfold ensureCapacity
  split <;> rfl

lemma ensureCapacity_chunkSamples (s : Framer) (a : ℕ) :
    (ensureCapacity s a).chunkSamples = s.chunkSamples := by
  unfold ensureCapacity
  split <;> rfl

lemma ensureCapacity_emitted (s : Framer) (a : ℕ) :
    (ensureCapacity s a).emitted = s.emitted := by
  unfold ensureCapacity
  split <;> rfl

lemma ensureCapacity_fits (s : Framer) (a : ℕ) (hw : s.Wf) :
    s.writePos + a ≤ (ensureCapacity s a).buffer.length := by
  have hwb : s.writePos ≤ s.buffer.length := hw
  unfold ensureCapacity
  split
  next h => exact h
  next h =>
    simp only [List.length_append, List.length_take, List.length_replicate]
    omega

lemma ensureCapacity_pending (s : Framer) (a : ℕ) (hw : s.Wf) :
    (ensureCapacity s a).pending = s.pending := by
  have hwb : s.writePos ≤ s.buffer.length := hw
  unfold ensureCapacity Framer.pending
  split
  next h => rfl
  next h =>
    simp only
    rw [List.take_append_eq_append_take, List.length_take]
    have hmin : min s.writePos s.buffer.length = s.writePos := by omega
    rw [List.take_take, hmin]
    simp [hmin]

lemma ensureCapacity_wf (s : Framer) (a : ℕ) (hw : s.Wf) :
    (ensureCapacity s a).Wf := by
  have h := ensureCapacity_fits s a hw
  have hwp := ensureCapacity_writePos s a
  show (ensureCapacity s a).writePos ≤ (ensureCapacity s a).buffer.length
  rw [hwp]
  exact le_trans (Nat.le_add_right _ _) h

/-- Capacity at least doubles whenever `ensureCapacity` has to grow. -/
lemma ensureCapacity_doubles (s : Framer) (a : ℕ) (hw : s.Wf)
    (hover : s.buffer.length < s.writePos + a) :
    2 * s.buffer.length ≤ (ensureCapacity s a).buffer.length := by
  have hwb : s.writePos ≤ s.buffer.length := hw
  unfold ensureCapacity
  split
  next h => omega
  next h =>
    simp only [List.length_append, List.length_take, List.length_replicate]
    omega

/-- All emitted frames have the fixed frame size. -/
def Framer.FramesOK (s : Framer) : Prop :=
  ∀ fr ∈ s.emitted, fr.length = s.chunkSamples

lemma emitFrame_spec (s : Framer) (hc : s.chunkSamples ≤ s.writePos) (hw : s.Wf) :
    (emitFrame s).content = s.content ∧ (emitFrame s).Wf ∧
      (emitFrame s).chunkSamples = s.chunkSamples ∧
      (s.FramesOK → (emitFrame s).FramesOK) := by
  have hwb : s.writePos ≤ s.buffer.length := hw
  have hrlen : ((s.buffer.drop s.chunkSamples).take
      (s.writePos - s.chunkSamples)).length = s.writePos - s.chunkSamples := by
    simp only [List.length_take, List.length_drop]
    omega
  have hpend : (emitFrame s).pending =
      (s.buffer.drop s.chunkSamples).take (s.writePos - s.chunkSamples) := by
    unfold emitFrame Framer.pending
    simp only
    exact List.take_left' hrlen
  refine ⟨?_, ?_, rfl, ?_⟩
  · unfold Framer.content
    rw [hpend]
    unfold emitFrame
    simp only [List.flatten_append, List.flatten_cons, List.flatten_nil,
      List.append_nil, List.append_assoc]
    congr 1
    unfold Framer.pending
    have hsplit : s.writePos = s.chunkSamples + (s.writePos - s.chunkSamples) := by
      omega
    rw [hsplit, List.take_add, Nat.add_sub_cancel_left]
  · have hblen : (emitFrame s).buffer.length = s.buffer.length := by
      unfold emitFrame
      simp only [List.length_append, List.length_take, List.length_drop]
      omega
    have hwp' : (emitFrame s).writePos = s.writePos - s.chunkSamples := rfl
    show (emitFrame s).writePos ≤ (emitFrame s).buffer.length
    rw [hwp', hblen]
    omega
  · intro hok fr hfr
    unfold emitFrame at hfr
    simp only [List.mem_append, List.mem_singleton] at hfr
    rcases hfr with hfr | hfr
    · exact hok fr hfr
    · subst hfr
      have hchrfl : (emitFrame s).chunkSamples = s.chunkSamples := rfl
      simp only [List.length_take, hchrfl]
      omega

lemma drainFrames_spec : ∀ (fuel : ℕ) (s : Framer), s.Wf →
    (drainFrames fuel s).content = s.content ∧ (drainFrames fuel s).Wf ∧
      (drainFrames fuel s).chunkSamples = s.chunkSamples ∧
      (s.FramesOK → (drainFrames fuel s).FramesOK)
  | 0, s, hw => ⟨rfl, hw, rfl, fun h => h⟩
  | fuel + 1, s, hw => by
    unfold drainFrames
    split
    next hc =>
      obtain ⟨h1, h2, h3, h4⟩ := emitFrame_spec s hc hw
      obtain ⟨g1, g2, g3, g4⟩ := drainFrames_spec fuel (emitFrame s) h2
      exact ⟨g1.trans h1, g2, g3.trans h3, fun h => g4 (h4 h)⟩
    next hc => exact ⟨rfl, hw, rfl, fun h => h⟩

lemma enqueue_spec (s : Framer) (xs : List ℤ) (hw : s.Wf) :
    (enqueue s xs).content = s.content ++ xs ∧ (enqueue s xs).Wf ∧
      (enqueue s xs).chunkSamples = s.chunkSamples ∧
      (s.FramesOK → (enqueue s xs).FramesOK) := by
  have hw1 := ensureCapacity_wf s xs.length hw
  have hfits := ensureCapacity_fits s xs.length hw
  have hwp := ensureCapacity_writePos s xs.length
  have hch := ensureCapacity_chunkSamples s xs.length
  have hem := ensureCapacity_emitted s xs.length
  have hpend1 := ensureCapacity_pending s xs.length hw
  set s1 := ensureCapacity s xs.length with hs1
  have hw1b : s1.writePos ≤ s1.buffer.length := hw1
  set s2 : Framer := { s1 with
    buffer := s1.buffer.take s1.writePos ++ xs ++
      s1.buffer.drop (s1.writePos + xs.length)
    writePos := s1.writePos + xs.length } with hs2
  have hlen2 : s2.buffer.length = s1.buffer.length := by
    rw [hs2]
    simp only [List.length_append, List.length_take, List.length_drop]
    omega
  have hw2 : s2.Wf := by
    show s2.writePos ≤ s2.buffer.length
    rw [hlen2, hs2]
    simp only
    omega
  have hpend2 : s2.pending = s1.pending ++ xs := by
    unfold Framer.pending
    rw [hs2]
    simp only [List.append_assoc]
    have hxlen : (s1.buffer.take s1.writePos).length = s1.writePos := by
      simp only [List.length_take]
      omega
    rw [← List.append_assoc]
    refine List.take_left' ?_
    simp only [List.length_append, hxlen]
  have hcont2 : s2.content = s.content ++ xs := by
    unfold Framer.content
    rw [hpend2]
    have : s2.emitted = s.emitted := by
      rw [hs2]
      simp only
      exact hem
    rw [this, ← hpend1, List.append_assoc]
  have hok2 : s.FramesOK → s2.FramesOK := by
    intro hok fr hfr
    have h1 : s2.emitted = s.emitted := by
      rw [hs2]
      simp only
      exact hem
    have h2 : s2.chunkSamples = s.chunkSamples := by
      rw [hs2]
      simp only
      exact hch
    rw [h2]
    exact hok fr (h1 ▸ hfr)
  obtain ⟨g1, g2, g3, g4⟩ := drainFrames_spec s2.writePos s2 hw2
  have hch2 : s2.chunkSamples = s.chunkSamples := by
    rw [hs2]
    simp only
    exact hch
  exact ⟨g1.trans hcont2, g2, g3.trans hch2, fun h => g4 (hok2 h)⟩

lemma foldl_enqueue_spec : ∀ (appends : List (List ℤ)) (s : Framer), s.Wf →
    (appends.foldl enqueue s).content = s.content ++ appends.flatten ∧
      (appends.foldl enqueue s).Wf ∧
      (appends.foldl enqueue s).chunkSamples = s.chunkSamples ∧
      (s.FramesOK → (appends.foldl enqueue s).FramesOK)
  | [], s, hw => by simp [hw, imp_self]
  | xs :: rest, s, hw => by
    obtain ⟨h1, h2, h3, h4⟩ := enqueue_spec s xs hw
    obtain ⟨g1, g2, g3, g4⟩ := foldl_enqueue_spec rest (enqueue s xs) h2
    refine ⟨?_, g2, g3.trans h3, fun h => g4 (h4 h)⟩
    simp only [List.foldl_cons] at *
    rw [g1, h1, List.flatten_cons, List.append_assoc]

/-- C5: for any finite sequence of appends of arbitrary sizes, the samples
emitted as frames followed by the samples still buffered are exactly the
concatenation of all appended samples (no sample lost, duplicated or
reordered, including across capacity growth); every emitted frame has the
fixed frame length; and whenever a write overflows the buffer, the new
capacity is at least double the old one. -/
theorem C5_framer_conservation (t ms : ℕ) (appends : List (List ℤ))
    (hc : 0 < t * ms / 1000) :
    (appends.foldl enqueue (mkProcessor t ms)).content = appends.flatten ∧
      (∀ fr ∈ (appends.foldl enqueue (mkProcessor t ms)).emitted,
        fr.length = t * ms / 1000) ∧
      (∀ (s : Framer) (a : ℕ), s.Wf → s.buffer.length < s.writePos + a →
        2 * s.buffer.length ≤ (ensureCapacity s a).buffer.length) := by
  have hw0 : (mkProcessor t ms).Wf := by
    show (0 : ℕ) ≤ _
    exact Nat.zero_le _
  have hok0 : (mkProcessor t ms).FramesOK := by
    intro fr hfr
    simp only [mkProcessor, List.not_mem_nil] at hfr
  obtain ⟨h1, h2, h3, h4⟩ := foldl_enqueue_spec appends (mkProcessor t ms) hw0
  refine ⟨?_, ?_, fun s a hw hover => ensureCapacity_doubles s a hw hover⟩
  · rw [h1]
    unfold Framer.content Framer.pending mkProcessor
    simp
  · intro fr hfr
    have := h4 hok0 fr hfr
    rw [this, h3]
    rfl

/-- Witness for C5 with frame size `1` (target rate 10, 100 ms chunks) and
appends `[5]`, `[6, 7]`. -/
theorem C5_framer_conservation_witness :
    0 < 10 * 100 / 1000 ∧
      ([[5], [6, 7]].foldl enqueue (mkProcessor 10 100)).content =
        ([[5], [6, 7]] : List (List ℤ)).flatten :=
  ⟨by decide, (C5_framer_conservation 10 100 [[5], [6, 7]] (by decide)).1⟩

/-! ## `src/client/main.js` — session state

The mutable client state the claims are about.  `phraseBuffers` embeds
the JS `Map` in insertion order (keys unique in every reachable state);
an audio payload is an opaque `ℕ` token standing for the decoded bytes
of one `tts_chunk`; a queued blob is the list of its phrase's chunks.
`released` is a ghost log of the sequence numbers `tryPlayAudio` moves
to `playbackQueue` (cleared by `resetPlayback`, mirroring the queue);
`played` is a ghost append-only log of every blob handed to the `<audio>`
element by `playNext`. -/

structure Entry where
  chunks : List ℕ
  done : Bool
deriving DecidableEq

structure ClientState where
  phraseBuffers : List (ℕ × Entry)
  playbackQueue : List (List ℕ)
  nextSeqToPlay : ℕ
  playing : Bool
  recording : Bool
  interimText : String
  finalText : String
  pendingAssistant : String
  conversation : List (String × String)
  released : List ℕ
  played : List (List ℕ)

/-- The module-level initial state (main.js lines 31–37). -/
def initState : ClientState :=
  { phraseBuffers := []
    playbackQueue := []
    nextSeqToPlay := 1
    playing := false
    recording := false
    interimText := ""
    finalText := ""
    pendingAssistant := ""
    conversation := []
    released := []
    played := [] }

/-- `Map.prototype.get` on the association list. -/
def lookupEntry (k : ℕ) : List (ℕ × Entry) → Option Entry
  | [] => none
  | (k', e) :: t => if k = k' then some e else lookupEntry k t

/-- `Map.prototype.set`: replace in place, or append a new key. -/
def setEntry (k : ℕ) (v : Entry) : List (ℕ × Entry) → List (ℕ × Entry)
  | [] => [(k, v)]
  | (k', e) :: t => if k = k' then (k, v) :: t else (k', e) :: setEntry k v t

/-- `Map.prototype.delete`: remove the (first) binding of the key. -/
def eraseEntry (k : ℕ) : List (ℕ × Entry) → List (ℕ × Entry)
  | [] => []
  | (k', e) :: t => if k = k' then t else (k', e) :: eraseEntry k t

/-- JS `String.prototype.trim` on the character list (the source trims
only plain ASCII whitespace in the inputs exercised here). -/
def jsTrim (s : String) : String :=
  ⟨((s.data.dropWhile Char.isWhitespace).reverse.dropWhile
      Char.isWhitespace).reverse⟩

/-- `pushConversation` (main.js lines 107–114): skip blank text, push the
trimmed text, then shift entries until at most 12 remain. -/
def pushConversation (role text : String) (s : ClientState) : ClientState :=
  if jsTrim text = "" then s
  else
    let c := s.conversation ++ [(role, jsTrim text)]
    { s with conversation := if 12 < c.length then c.drop (c.length - 12) else c }

/-- `playNext` (main.js lines 336–355), up to the asynchronous `onended`
callback: an empty queue clears `playing`; otherwise the head blob is
shifted off and handed to the audio element. -/
def playNext (s : ClientState) : ClientState :=
  match s.playbackQueue with
  | [] => { s with playing := false }
  | blob :: rest =>
      { s with playing := true, playbackQueue := rest, played := s.played ++ [blob] }

/-- One iteration of the release in `tryPlayAudio`'s `while` loop
(main.js lines 325–328). -/
def releaseStep (s : ClientState) (e : Entry) : ClientState :=
  { s with
    playbackQueue := s.playbackQueue ++ [e.chunks]
    phraseBuffers := eraseEntry s.nextSeqToPlay s.phraseBuffers
    nextSeqToPlay := s.nextSeqToPlay + 1
    released := s.released ++ [s.nextSeqToPlay] }

/-- The `while (phraseBuffers.has(nextSeqToPlay))` loop of `tryPlayAudio`
(main.js lines 322–329).  Each iteration deletes one map entry, so
`phraseBuffers.length` iterations of fuel always suffice. -/
def tryPlayLoop : ℕ → ClientState → ClientState
  | 0, s => s
  | fuel + 1, s =>
      match lookupEntry s.nextSeqToPlay s.phraseBuffers with
      | none => s
      | some e => if e.done then tryPlayLoop fuel (releaseStep s e) else s

/-- `tryPlayAudio` (main.js lines 321–334). -/
def tryPlayAudio (s : ClientState) : ClientState :=
  let s' := tryPlayLoop s.phraseBuffers.length s
  if s'.playing then s' else playNext s'

/-- `handleTtsChunk` (main.js lines 301–311): get or create the entry for
`seq`, then push the decoded bytes. -/
def handleTtsChunk (seq : ℕ) (bytes : ℕ) (s : ClientState) : ClientState :=
  let entry := (lookupEntry seq s.phraseBuffers).getD { chunks := [], done := false }
  { s with phraseBuffers :=
      setEntry seq { entry with chunks := entry.chunks ++ [bytes] } s.phraseBuffers }

/-- `finalizePhrase` (main.js lines 313–319): a done marker for a sequence
with no buffer entry is dropped; otherwise mark done and try to play. -/
def finalizePhrase (seq : ℕ) (s : ClientState) : ClientState :=
  match lookupEntry seq s.phraseBuffers with
  | none => s
  | some e =>
      tryPlayAudio { s with phraseBuffers := setEntry seq { e with done := true } s.phraseBuffers }

/-- `resetPlayback` (main.js lines 357–371). -/
def resetPlayback (s : ClientState) : ClientState :=
  { s with
    phraseBuffers := []
    playbackQueue := []
    nextSeqToPlay := 1
    playing := false
    released := [] }

/-- `sendCancel` (main.js lines 177–184): sends `{type: "cancel"}` and
resets playback; the rest of the handler only touches UI affordances. -/
def sendCancel (s : ClientState) : ClientState := resetPlayback s

/-- Server messages dispatched by `handleServerMessage`, carrying the
fields the handler reads. -/
inductive Msg where
  | interimTranscript (text : String)
  | finalTranscript (text : String)
  | llmToken (text : String) (done : Bool)
  | ttsChunk (seq : ℕ) (audio : ℕ)
  | ttsPhraseDone (seq : ℕ)
  | ttsComplete
  | infoMsg (message : String)
  | errorMsg (message : String)
  | logMsg (message : String)

/-- `handleServerMessage` (main.js lines 246–299); `interimTranscript` is
the `partial_transcript` case.  `info`/`error` only log to the console and
`log` only appends to the log panel, none of which is modelled state. -/
def handleServerMessage (m : Msg) (s : ClientState) : ClientState :=
  match m with
  | .interimTranscript t => { s with interimText := t }
  | .finalTranscript t => pushConversation "User" t { s with finalText := t }
  | .llmToken t d =>
      if !d then { s with pendingAssistant := s.pendingAssistant ++ t }
      else if s.pendingAssistant ≠ "" then
        { pushConversation "Assistant" s.pendingAssistant s with pendingAssistant := "" }
      else s
  | .ttsChunk seq audio => handleTtsChunk seq audio s
  | .ttsPhraseDone seq => finalizePhrase seq s
  | .ttsComplete => if !s.recording then tryPlayAudio s else s
  | .infoMsg _ => s
  | .errorMsg _ => s
  | .logMsg _ => s

/-- Process a list of incoming server messages in order. -/
def runMsgs (msgs : List Msg) (s : ClientState) : ClientState :=
  msgs.foldl (fun st m => handleServerMessage m st) s

lemma runMsgs_append (a b : List Msg) (s : ClientState) :
    runMsgs (a ++ b) s = runMsgs b (runMsgs a s) :=
  List.foldl_append _ _ a b

/-- C9: handling `partial_transcript{text: t}` replaces the displayed
partial text with `t`, whatever was displayed before. -/
theorem C9_partial_transcript_replaces (s : ClientState) (t : String) :
    (handleServerMessage (Msg.interimTranscript t) s).interimText = t := rfl

/-- C2 (evaluation at the failing input): with two phrases, phrase 1's
synthesis failing with no chunks, the trace `tts_phrase_done{1}`,
`tts_chunk{2}`, `tts_phrase_done{2}` leaves the cursor at 1 forever:
nothing is released, and phrase 2 sits done-but-buffered. -/
theorem C2_done_without_chunks_blocks_cursor :
    (runMsgs [Msg.ttsPhraseDone 1, Msg.ttsChunk 2 9, Msg.ttsPhraseDone 2]
        initState).released = [] ∧
      (runMsgs [Msg.ttsPhraseDone 1, Msg.ttsChunk 2 9, Msg.ttsPhraseDone 2]
        initState).nextSeqToPlay = 1 ∧
      lookupEntry 2 (runMsgs [Msg.ttsPhraseDone 1, Msg.ttsChunk 2 9,
        Msg.ttsPhraseDone 2] initState).phraseBuffers =
        some { chunks := [9], done := true } := by
  decide

/-- C6 counterexample: after a cancel the conversation is still empty, yet
a late terminal `llm_token` commits the cancelled cycle's partially
accumulated reply to conversation memory — `sendCancel` never clears
`pendingAssistant`. -/
theorem C6_counterexample :
    (sendCancel (runMsgs [Msg.llmToken "Hi" false] initState)).conversation = [] ∧
      (runMsgs [Msg.llmToken "" true]
          (sendCancel (runMsgs [Msg.llmToken "Hi" false] initState))).conversation =
        [("Assistant", "Hi")] := by
  decide

/-- C6 amended: cancellation clears the phrase buffers and the playback
queue, resets the cursor to 1 and stops playback, and at the moment of
cancel commits nothing; but it leaves `pendingAssistant` untouched, so a
late terminal `llm_token` can still commit the cancelled cycle's partial
reply (and late tts events can still be replayed). -/
theorem C6_amended_cancel_resets_playback_only (s : ClientState) :
    (sendCancel s).phraseBuffers = [] ∧ (sendCancel s).playbackQueue = [] ∧
      (sendCancel s).nextSeqToPlay = 1 ∧ (sendCancel s).playing = false ∧
      (sendCancel s).conversation = s.conversation ∧
      (sendCancel s).pendingAssistant = s.pendingAssistant :=
  ⟨rfl, rfl, rfl, rfl, rfl, rfl⟩

/-- C7 counterexample: a completion arriving after the cancel is *not*
dropped — a late `tts_chunk` recreates a buffer entry and the following
`tts_phrase_done` releases it to the playback queue and starts playing
it. -/
theorem C7_counterexample :
    (runMsgs [Msg.ttsChunk 1 7, Msg.ttsPhraseDone 1]
        (sendCancel (runMsgs [Msg.ttsChunk 1 5] initState))).released = [1] ∧
      (runMsgs [Msg.ttsChunk 1 7, Msg.ttsPhraseDone 1]
        (sendCancel (runMsgs [Msg.ttsChunk 1 5] initState))).played = [[7]] := by
  decide

/-- C7 amended: the client has no cycle tags or liveness check.  A late
`tts_phrase_done` *alone* is dropped after a cancel (the cleared buffer
map makes `finalizePhrase` a no-op), but a late `tts_chunk` re-buffers
its phrase and a subsequent done marker plays it. -/
theorem C7_amended_late_done_alone_dropped (s : ClientState) (seq : ℕ) :
    handleServerMessage (Msg.ttsPhraseDone seq) (sendCancel s) = sendCancel s := rfl

/-- `frs.map (t ↦ llm_token{text: t, done: false})`: a cycle's fragment
stream before its terminal marker. -/
def tokenMsgs (frs : List String) : List Msg :=
  frs.map (fun t => Msg.llmToken t false)

lemma string_foldl_append (l : List String) (a b : String) :
    l.foldl (· ++ ·) (a ++ b) = a ++ l.foldl (· ++ ·) b := by
  induction l generalizing b with
  | nil => rfl
  | cons x xs ih =>
    simp only [List.foldl_cons, String.append_assoc]
    exact ih (b ++ x)

lemma join_cons_eq (x : String) (l : List String) :
    String.join (x :: l) = x ++ String.join l := by
  simp only [String.join, List.foldl_cons]
  have h := string_foldl_append l x ""
  rw [String.append_empty] at h
  rw [String.empty_append]
  exact h

lemma tokens_accumulate : ∀ (frs : List String) (s : ClientState),
    runMsgs (tokenMsgs frs) s =
      { s with pendingAssistant := s.pendingAssistant ++ String.join frs }
  | [], s => by
    show s = _
    rw [show String.join [] = "" from rfl, String.append_empty]
  | f :: fs, s => by
    show runMsgs (tokenMsgs fs) (handleServerMessage (Msg.llmToken f false) s) = _
    rw [show handleServerMessage (Msg.llmToken f false) s =
        { s with pendingAssistant := s.pendingAssistant ++ f } from rfl]
    rw [tokens_accumulate fs]
    simp only [join_cons_eq, String.append_assoc]

lemma handle_terminal (s : ClientState) :
    handleServerMessage (Msg.llmToken "" true) s =
      (if s.pendingAssistant ≠ "" then
        { pushConversation "Assistant" s.pendingAssistant s with pendingAssistant := "" }
      else s) := rfl

/-- C8 amended: with no terminal marker nothing is committed; on the
terminal marker the committed text is the whitespace-*trimmed*
concatenation of the cycle's fragments in arrival order (nothing is
committed when the concatenation is all whitespace), not the raw
concatenation. -/
theorem C8_amended_commit_trimmed_concat (frs : List String) (s : ClientState)
    (hpa : s.pendingAssistant = "") (hlen : s.conversation.length < 12) :
    (runMsgs (tokenMsgs frs) s).conversation = s.conversation ∧
      (runMsgs (tokenMsgs frs ++ [Msg.llmToken "" true]) s).conversation =
        (if jsTrim (String.join frs) = "" then s.conversation
          else s.conversation ++ [("Assistant", jsTrim (String.join frs))]) := by
  have hacc := tokens_accumulate frs s
  constructor
  · rw [hacc]
  · rw [runMsgs_append, hacc, hpa, String.empty_append]
    show (handleServerMessage (Msg.llmToken "" true)
      { s with pendingAssistant := String.join frs }).conversation = _
    rw [handle_terminal]
    by_cases hj : String.join frs = ""
    · rw [if_neg (show ¬ ({ s with pendingAssistant := String.join frs } :
          ClientState).pendingAssistant ≠ "" from fun h => h hj)]
      rw [hj]
      rw [show jsTrim "" = "" from rfl, if_pos rfl]
    · rw [if_pos (show ({ s with pendingAssistant := String.join frs } :
          ClientState).pendingAssistant ≠ "" from hj)]
      show (pushConversation "Assistant" (String.join frs)
        { s with pendingAssistant := String.join frs }).conversation = _
      unfold pushConversation
      by_cases ht : jsTrim (String.join frs) = ""
      · rw [if_pos ht, if_pos ht]
      · rw [if_neg ht, if_neg ht]
        simp only [List.length_append, List.length_singleton]
        rw [if_neg (show ¬ (12 < s.conversation.length + 1) by omega)]

/-- Witness for the amended C8 with fragments `" Hello"`, `" world "`. -/
theorem C8_amended_witness :
    (runMsgs (tokenMsgs [" Hello", " world "]) initState).conversation =
        initState.conversation ∧
      (runMsgs (tokenMsgs [" Hello", " world "] ++ [Msg.llmToken "" true])
          initState).conversation =
        (if jsTrim (String.join [" Hello", " world "]) = "" then
            initState.conversation
          else initState.conversation ++
            [("Assistant", jsTrim (String.join [" Hello", " world "]))]) :=
  C8_amended_commit_trimmed_concat [" Hello", " world "] initState rfl (by decide)

/-- C8 counterexample: the cycle with single fragment `" Hi "` commits
`"Hi"` — the trimmed text — not the concatenation `" Hi "` of its
fragments. -/
theorem C8_counterexample :
    (runMsgs [Msg.llmToken " Hi " false, Msg.llmToken "" true]
        initState).conversation = [("Assistant", "Hi")] ∧
      (" Hi " : String) ≠ "Hi" := by
  decide

/-! ## Association-list (JS `Map`) lemmas -/

lemma lookup_setEntry_self (k : ℕ) (v : Entry) :
    ∀ m : List (ℕ × Entry), lookupEntry k (setEntry k v m) = some v
  | [] => by simp [setEntry, lookupEntry]
  | (k', e) :: t => by
    by_cases h : k = k'
    · simp [setEntry, lookupEntry, h]
    · simp [setEntry, lookupEntry, h, lookup_setEntry_self k v t]

lemma lookup_setEntry_ne (j k : ℕ) (v : Entry) (hjk : j ≠ k) :
    ∀ m : List (ℕ × Entry), lookupEntry j (setEntry k v m) = lookupEntry j m
  | [] => by simp [setEntry, lookupEntry, hjk]
  | (k', e) :: t => by
    by_cases h : k = k'
    · subst h
      simp [setEntry, lookupEntry, hjk]
    · by_cases h2 : j = k'
      · simp [setEntry, lookupEntry, h, h2]
      · simp [setEntry, lookupEntry, h, h2, lookup_setEntry_ne j k v hjk t]

lemma lookup_eraseEntry_ne (j k : ℕ) (hjk : j ≠ k) :
    ∀ m : List (ℕ × Entry), lookupEntry j (eraseEntry k m) = lookupEntry j m
  | [] => rfl
  | (k', e) :: t => by
    by_cases h : k = k'
    · subst h
      simp [eraseEntry, lookupEntry, hjk]
    · by_cases h2 : j = k'
      · simp [eraseEntry, lookupEntry, h, h2]
      · simp [eraseEntry, lookupEntry, h, h2, lookup_eraseEntry_ne j k hjk t]

lemma lookup_keys_none (k : ℕ) :
    ∀ m : List (ℕ × Entry), k ∉ m.map Prod.fst → lookupEntry k m = none
  | [], _ => rfl
  | (k', e) :: t, h => by
    simp only [List.map_cons, List.mem_cons, not_or] at h
    simp [lookupEntry, h.1, lookup_keys_none k t h.2]

lemma lookup_eraseEntry_self (k : ℕ) :
    ∀ m : List (ℕ × Entry), (m.map Prod.fst).Nodup →
      lookupEntry k (eraseEntry k m) = none
  | [], _ => rfl
  | (k', e) :: t, hnd => by
    simp only [List.map_cons, List.nodup_cons] at hnd
    by_cases h : k = k'
    · subst h
      simp only [eraseEntry, if_pos rfl]
      exact lookup_keys_none k t hnd.1
    · simp [eraseEntry, lookupEntry, h, lookup_eraseEntry_self k t hnd.2]

lemma isSome_lookup_eraseEntry (j k : ℕ) :
    ∀ m : List (ℕ × Entry), (lookupEntry j (eraseEntry k m)).isSome = true →
      (lookupEntry j m).isSome = true
  | [], h => h
  | (k', e) :: t, h => by
    by_cases hk : k = k'
    · subst hk
      simp only [eraseEntry, if_pos rfl] at h
      by_cases hj : j = k
      · simp [lookupEntry, hj]
      · simp only [lookupEntry, if_neg hj]
        exact h
    · by_cases hj : j = k'
      · simp [lookupEntry, hj]
      · simp only [eraseEntry, if_neg hk, lookupEntry, if_neg hj] at h ⊢
        exact isSome_lookup_eraseEntry j k t h

lemma mem_keys_setEntry (x k : ℕ) (v : Entry) :
    ∀ m : List (ℕ × Entry),
      (x ∈ (setEntry k v m).map Prod.fst ↔ x ∈ m.map Prod.fst ∨ x = k)
  | [] => by simp [setEntry]
  | (k', e) :: t => by
    by_cases h : k = k'
    · subst h
      rw [show setEntry k v ((k, e) :: t) = (k, v) :: t from by simp [setEntry]]
      simp only [List.map_cons, List.mem_cons]
      tauto
    · simp only [setEntry, if_neg h, List.map_cons, List.mem_cons,
        mem_keys_setEntry x k v t]
      tauto

lemma nodup_keys_setEntry (k : ℕ) (v : Entry) :
    ∀ m : List (ℕ × Entry), (m.map Prod.fst).Nodup →
      ((setEntry k v m).map Prod.fst).Nodup
  | [], _ => by simp [setEntry]
  | (k', e) :: t, hnd => by
    simp only [List.map_cons, List.nodup_cons] at hnd
    by_cases h : k = k'
    · subst h
      rw [show setEntry k v ((k, e) :: t) = (k, v) :: t from by simp [setEntry]]
      simp only [List.map_cons, List.nodup_cons]
      exact hnd
    · simp only [setEntry, if_neg h, List.map_cons, List.nodup_cons]
      refine ⟨fun hmem => ?_, nodup_keys_setEntry k v t hnd.2⟩
      rcases (mem_keys_setEntry k' k v t).mp hmem with hm | he
      · exact hnd.1 hm
      · exact h he.symm

lemma mem_keys_eraseEntry (x k : ℕ) :
    ∀ m : List (ℕ × Entry),
      x ∈ (eraseEntry k m).map Prod.fst → x ∈ m.map Prod.fst
  | [], h => h
  | (k', e) :: t, h => by
    by_cases hk : k = k'
    · subst hk
      simp only [eraseEntry, if_pos rfl] at h
      simp only [List.map_cons, List.mem_cons]
      exact Or.inr h
    · simp only [eraseEntry, if_neg hk, List.map_cons, List.mem_cons] at h ⊢
      rcases h with h | h
      · exact Or.inl h
      · exact Or.inr (mem_keys_eraseEntry x k t h)

lemma nodup_keys_eraseEntry (k : ℕ) :
    ∀ m : List (ℕ × Entry), (m.map Prod.fst).Nodup →
      ((eraseEntry k m).map Prod.fst).Nodup
  | [], h => h
  | (k', e) :: t, hnd => by
    simp only [List.map_cons, List.nodup_cons] at hnd
    by_cases hk : k = k'
    · subst hk
      simp only [eraseEntry, if_pos rfl]
      exact hnd.2
    · simp only [eraseEntry, if_neg hk, List.map_cons, List.nodup_cons]
      exact ⟨fun hm => hnd.1 (mem_keys_eraseEntry k' k t hm),
        nodup_keys_eraseEntry k t hnd.2⟩

lemma length_eraseEntry (k : ℕ) (e : Entry) :
    ∀ m : List (ℕ × Entry), lookupEntry k m = some e →
      (eraseEntry k m).length + 1 = m.length
  | [], h => by simp [lookupEntry] at h
  | (k', e') :: t, h => by
    by_cases hk : k = k'
    · subst hk
      simp [eraseEntry]
    · simp only [lookupEntry, if_neg hk] at h
      simp only [eraseEntry, if_neg hk, List.length_cons]
      rw [← length_eraseEntry k e t h]

/-! ## Cursor invariants (C10, and groundwork for C1) -/

lemma playNext_playfields (s : ClientState) :
    (playNext s).phraseBuffers = s.phraseBuffers ∧
      (playNext s).nextSeqToPlay = s.nextSeqToPlay ∧
      (playNext s).released = s.released := by
  cases h : s.playbackQueue <;> simp [playNext, h]

lemma pushConversation_playfields (r t : String) (s : ClientState) :
    (pushConversation r t s).phraseBuffers = s.phraseBuffers ∧
      (pushConversation r t s).nextSeqToPlay = s.nextSeqToPlay ∧
      (pushConversation r t s).released = s.released := by
  unfold pushConversation
  split <;> exact ⟨rfl, rfl, rfl⟩

lemma releaseStep_cursor (s : ClientState) (e : Entry) :
    (releaseStep s e).nextSeqToPlay = s.nextSeqToPlay + 1 := rfl

lemma tryPlayLoop_mono : ∀ (fuel : ℕ) (s : ClientState),
    s.nextSeqToPlay ≤ (tryPlayLoop fuel s).nextSeqToPlay
  | 0, s => le_refl _
  | fuel + 1, s => by
    unfold tryPlayLoop
    split
    · exact le_refl _
    next e heq =>
      split
      · calc s.nextSeqToPlay ≤ s.nextSeqToPlay + 1 := Nat.le_succ _
          _ ≤ _ := tryPlayLoop_mono fuel (releaseStep s e)
      · exact le_refl _

lemma tryPlayAudio_mono (s : ClientState) :
    s.nextSeqToPlay ≤ (tryPlayAudio s).nextSeqToPlay := by
  unfold tryPlayAudio
  simp only
  split
  · exact tryPlayLoop_mono _ s
  · exact le_trans (tryPlayLoop_mono _ s)
      (le_of_eq (playNext_playfields _).2.1.symm)

lemma handle_final_eq (t : String) (s : ClientState) :
    handleServerMessage (Msg.finalTranscript t) s =
      pushConversation "User" t { s with finalText := t } := rfl

lemma handle_llmToken_eq (t : String) (d : Bool) (s : ClientState) :
    handleServerMessage (Msg.llmToken t d) s =
      (if !d then { s with pendingAssistant := s.pendingAssistant ++ t }
        else if s.pendingAssistant ≠ "" then
          { pushConversation "Assistant" s.pendingAssistant s with
              pendingAssistant := "" }
        else s) := rfl

lemma handle_complete_eq (s : ClientState) :
    handleServerMessage Msg.ttsComplete s =
      (if !s.recording then tryPlayAudio s else s) := rfl

lemma finalizePhrase_mono (seq : ℕ) (s : ClientState) :
    s.nextSeqToPlay ≤ (finalizePhrase seq s).nextSeqToPlay := by
  unfold finalizePhrase
  split
  · exact le_refl _
  next e heq =>
    exact tryPlayAudio_mono
      { s with phraseBuffers := setEntry seq { e with done := true } s.phraseBuffers }

lemma handleServerMessage_mono (m : Msg) (s : ClientState) :
    s.nextSeqToPlay ≤ (handleServerMessage m s).nextSeqToPlay := by
  cases m with
  | interimTranscript t => exact le_refl _
  | finalTranscript t =>
    rw [handle_final_eq]
    exact le_of_eq
      (pushConversation_playfields "User" t { s with finalText := t }).2.1.symm
  | llmToken t d =>
    rw [handle_llmToken_eq]
    split
    · exact le_refl _
    · split
      · exact le_of_eq
          (pushConversation_playfields "Assistant" s.pendingAssistant s).2.1.symm
      · exact le_refl _
  | ttsChunk seq a => exact le_refl _
  | ttsPhraseDone seq => exact finalizePhrase_mono seq s
  | ttsComplete =>
    rw [handle_complete_eq]
    split
    · exact tryPlayAudio_mono s
    · exact le_refl _
  | infoMsg t => exact le_refl _
  | errorMsg t => exact le_refl _
  | logMsg t => exact le_refl _

/-- The released ghost log always lists exactly the sequence numbers
`1, …, nextSeqToPlay - 1`, in order. -/
def WInv (s : ClientState) : Prop :=
  1 ≤ s.nextSeqToPlay ∧ s.released = List.range' 1 (s.nextSeqToPlay - 1)

lemma range'_snoc_cursor (c : ℕ) (h : 1 ≤ c) :
    List.range' 1 (c - 1) ++ [c] = List.range' 1 c := by
  have h2 := @List.range'_concat 1 1 (c - 1)
  rw [show c - 1 + 1 = c by omega] at h2
  rw [show 1 + 1 * (c - 1) = c by omega] at h2
  exact h2.symm

lemma releaseStep_winv (s : ClientState) (e : Entry) (h : WInv s) :
    WInv (releaseStep s e) := by
  obtain ⟨h1, h2⟩ := h
  refine ⟨by show 1 ≤ s.nextSeqToPlay + 1; omega, ?_⟩
  show s.released ++ [s.nextSeqToPlay] = List.range' 1 (s.nextSeqToPlay + 1 - 1)
  rw [h2, Nat.add_sub_cancel]
  exact range'_snoc_cursor _ h1

lemma tryPlayLoop_winv : ∀ (fuel : ℕ) (s : ClientState), WInv s →
    WInv (tryPlayLoop fuel s)
  | 0, _, h => h
  | fuel + 1, s, h => by
    unfold tryPlayLoop
    split
    · exact h
    next e heq =>
      split
      · exact tryPlayLoop_winv fuel (releaseStep s e) (releaseStep_winv s e h)
      · exact h

lemma winv_of_eq {s s' : ClientState}
    (hc : s'.nextSeqToPlay = s.nextSeqToPlay) (hr : s'.released = s.released)
    (h : WInv s) : WInv s' := by
  obtain ⟨h1, h2⟩ := h
  exact ⟨hc ▸ h1, by rw [hr, hc, h2]⟩

lemma tryPlayAudio_winv (s : ClientState) (h : WInv s) :
    WInv (tryPlayAudio s) := by
  unfold tryPlayAudio
  simp only
  split
  · exact tryPlayLoop_winv _ s h
  · exact winv_of_eq (playNext_playfields _).2.1 (playNext_playfields _).2.2
      (tryPlayLoop_winv _ s h)

lemma finalizePhrase_winv (seq : ℕ) (s : ClientState) (h : WInv s) :
    WInv (finalizePhrase seq s) := by
  unfold finalizePhrase
  split
  · exact h
  next e heq => exact tryPlayAudio_winv _ h

lemma handleServerMessage_winv (m : Msg) (s : ClientState) (h : WInv s) :
    WInv (handleServerMessage m s) := by
  cases m with
  | interimTranscript t => exact winv_of_eq rfl rfl h
  | finalTranscript t =>
    rw [handle_final_eq]
    exact winv_of_eq
      (pushConversation_playfields "User" t { s with finalText := t }).2.1
      (pushConversation_playfields "User" t { s with finalText := t }).2.2 h
  | llmToken t d =>
    rw [handle_llmToken_eq]
    split
    · exact winv_of_eq rfl rfl h
    · split
      · exact winv_of_eq (pushConversation_playfields "Assistant" _ s).2.1
          (pushConversation_playfields "Assistant" _ s).2.2 h
      · exact h
  | ttsChunk seq a => exact winv_of_eq rfl rfl h
  | ttsPhraseDone seq => exact finalizePhrase_winv seq s h
  | ttsComplete =>
    rw [handle_complete_eq]
    split
    · exact tryPlayAudio_winv s h
    · exact h
  | infoMsg t => exact h
  | errorMsg t => exact h
  | logMsg t => exact h

lemma runMsgs_winv : ∀ (msgs : List Msg) (s : ClientState), WInv s →
    WInv (runMsgs msgs s)
  | [], _, h => h
  | m :: rest, s, h =>
    runMsgs_winv rest (handleServerMessage m s) (handleServerMessage_winv m s h)

/-- C10: across every server message the next-to-play cursor is
non-decreasing, and in every run from the initial state the ghost log of
sequence numbers moved to the playback queue has no duplicates — each
phrase is released at most once between resets. -/
theorem C10_cursor_monotone_release_once :
    (∀ (m : Msg) (s : ClientState),
        s.nextSeqToPlay ≤ (handleServerMessage m s).nextSeqToPlay) ∧
      (∀ msgs : List Msg, (runMsgs msgs initState).released.Nodup) := by
  refine ⟨handleServerMessage_mono, fun msgs => ?_⟩
  have h := runMsgs_winv msgs initState ⟨le_refl 1, rfl⟩
  rw [h.2]
  exact List.nodup_range' _ _

/-! ## C1: ordered release under arbitrary completion interleavings

A cycle's tts traffic as an abstract event list: each phrase emits some
`chunk` events and one `done` marker.  `armed i p` says a chunk of phrase
`i` occurs in `p`; `fired i a p` says a done marker of phrase `i` occurs
in `p` after some chunk of `i` (the accumulator `a` carries "a chunk has
already been seen"). -/

inductive TtsEv where
  | chunk (seq : ℕ) (audio : ℕ)
  | done (seq : ℕ)
deriving DecidableEq

def TtsEv.seq : TtsEv → ℕ
  | chunk s _ => s
  | done s => s

def TtsEv.toMsg : TtsEv → Msg
  | chunk s a => Msg.ttsChunk s a
  | done s => Msg.ttsPhraseDone s

def armed (i : ℕ) : List TtsEv → Bool
  | [] => false
  | TtsEv.chunk j _ :: t => i == j || armed i t
  | TtsEv.done _ :: t => armed i t

def fired (i : ℕ) : Bool → List TtsEv → Bool
  | _, [] => false
  | a, TtsEv.chunk j _ :: t => fired i (a || i == j) t
  | a, TtsEv.done j :: t => (i == j && a) || fired i a t

lemma armed_append (i : ℕ) : ∀ (p q : List TtsEv),
    armed i (p ++ q) = (armed i p || armed i q)
  | [], q => rfl
  | TtsEv.chunk j b :: t, q => by
    simp only [List.cons_append, armed, List.append_eq, armed_append i t q,
      Bool.or_assoc]
  | TtsEv.done j :: t, q => by
    simp only [List.cons_append, armed, List.append_eq, armed_append i t q]

lemma fired_append (i : ℕ) : ∀ (p q : List TtsEv) (a : Bool),
    fired i a (p ++ q) = (fired i a p || fired i (a || armed i p) q)
  | [], q, a => by simp [fired, armed]
  | TtsEv.chunk j b :: t, q, a => by
    simp only [List.cons_append, fired, armed, List.append_eq]
    rw [fired_append i t q (a || (i == j)), Bool.or_assoc]
  | TtsEv.done j :: t, q, a => by
    simp only [List.cons_append, fired, armed, List.append_eq]
    rw [fired_append i t q a, Bool.or_assoc]

lemma armed_snoc_chunk (i j b : ℕ) (p : List TtsEv) :
    armed i (p ++ [TtsEv.chunk j b]) = (armed i p || (i == j)) := by
  rw [armed_append]
  simp [armed]

lemma armed_snoc_done (i j : ℕ) (p : List TtsEv) :
    armed i (p ++ [TtsEv.done j]) = armed i p := by
  rw [armed_append]
  simp [armed]

lemma fired_snoc_chunk (i j b : ℕ) (p : List TtsEv) :
    fired i false (p ++ [TtsEv.chunk j b]) = fired i false p := by
  rw [fired_append]
  simp [fired]

lemma fired_snoc_done (i j : ℕ) (p : List TtsEv) :
    fired i false (p ++ [TtsEv.done j]) =
      (fired i false p || ((i == j) && armed i p)) := by
  rw [fired_append]
  simp [fired]

lemma armed_mem (i : ℕ) : ∀ p : List TtsEv, armed i p = true →
    ∃ b, TtsEv.chunk i b ∈ p
  | [], h => by simp [armed] at h
  | TtsEv.chunk j b :: t, h => by
    simp only [armed, Bool.or_eq_true, beq_iff_eq] at h
    rcases h with h | h
    · exact ⟨b, by rw [h]; exact List.mem_cons_self _ _⟩
    · obtain ⟨b', hb⟩ := armed_mem i t h
      exact ⟨b', List.mem_cons_of_mem _ hb⟩
  | TtsEv.done j :: t, h => by
    simp only [armed] at h
    obtain ⟨b', hb⟩ := armed_mem i t h
    exact ⟨b', List.mem_cons_of_mem _ hb⟩

/-- Exit condition of `tryPlayAudio`'s loop: the phrase at the cursor, if
buffered, is not yet done. -/
def NotBlocked (s : ClientState) : Prop :=
  ∀ e, lookupEntry s.nextSeqToPlay s.phraseBuffers = some e → e.done = false

/-- Invariant tying the client's playback state to the tts event prefix
`p` processed so far (within one un-reset cycle). -/
structure TtsCore (p : List TtsEv) (s : ClientState) : Prop where
  one_le : 1 ≤ s.nextSeqToPlay
  rel : s.released = List.range' 1 (s.nextSeqToPlay - 1)
  keys : (s.phraseBuffers.map Prod.fst).Nodup
  mem_of_armed : ∀ i, s.nextSeqToPlay ≤ i → armed i p = true →
      (lookupEntry i s.phraseBuffers).isSome = true
  armed_of_mem : ∀ i, (lookupEntry i s.phraseBuffers).isSome = true →
      armed i p = true
  done_of_fired : ∀ i, s.nextSeqToPlay ≤ i → fired i false p = true →
      ∃ e, lookupEntry i s.phraseBuffers = some e ∧ e.done = true
  armed_below : ∀ i, 1 ≤ i → i < s.nextSeqToPlay → armed i p = true

lemma core_of_eq {p : List TtsEv} {s s' : ClientState}
    (hb : s'.phraseBuffers = s.phraseBuffers)
    (hc : s'.nextSeqToPlay = s.nextSeqToPlay)
    (hr : s'.released = s.released) (h : TtsCore p s) : TtsCore p s' where
  one_le := hc ▸ h.one_le
  rel := by rw [hr, hc, h.rel]
  keys := hb ▸ h.keys
  mem_of_armed := by
    intro i hi ha
    rw [hb]
    exact h.mem_of_armed i (hc ▸ hi) ha
  armed_of_mem := by
    intro i hm
    exact h.armed_of_mem i (hb ▸ hm)
  done_of_fired := by
    intro i hi hf
    rw [hb]
    exact h.done_of_fired i (hc ▸ hi) hf
  armed_below := by
    intro i h1 hi
    exact h.armed_below i h1 (hc ▸ hi)

lemma releaseStep_core (p : List TtsEv) (s : ClientState) (e : Entry)
    (hl : lookupEntry s.nextSeqToPlay s.phraseBuffers = some e)
    (h : TtsCore p s) : TtsCore p (releaseStep s e) where
  one_le := by
    show 1 ≤ s.nextSeqToPlay + 1
    omega
  rel := by
    show s.released ++ [s.nextSeqToPlay] =
      List.range' 1 (s.nextSeqToPlay + 1 - 1)
    rw [h.rel, Nat.add_sub_cancel]
    exact range'_snoc_cursor _ h.one_le
  keys := by
    show ((eraseEntry s.nextSeqToPlay s.phraseBuffers).map Prod.fst).Nodup
    exact nodup_keys_eraseEntry _ _ h.keys
  mem_of_armed := by
    intro i hi ha
    have hi' : s.nextSeqToPlay + 1 ≤ i := hi
    show (lookupEntry i (eraseEntry s.nextSeqToPlay s.phraseBuffers)).isSome = true
    rw [lookup_eraseEntry_ne i s.nextSeqToPlay (by omega) s.phraseBuffers]
    exact h.mem_of_armed i (by omega) ha
  armed_of_mem := by
    intro i hm
    exact h.armed_of_mem i (isSome_lookup_eraseEntry i _ _ hm)
  done_of_fired := by
    intro i hi hf
    have hi' : s.nextSeqToPlay + 1 ≤ i := hi
    show ∃ e', lookupEntry i (eraseEntry s.nextSeqToPlay s.phraseBuffers) =
      some e' ∧ e'.done = true
    rw [lookup_eraseEntry_ne i s.nextSeqToPlay (by omega) s.phraseBuffers]
    exact h.done_of_fired i (by omega) hf
  armed_below := by
    intro i h1 hi
    have hi' : i < s.nextSeqToPlay + 1 := hi
    by_cases hic : i = s.nextSeqToPlay
    · subst hic
      exact h.armed_of_mem s.nextSeqToPlay (by rw [hl]; rfl)
    · exact h.armed_below i h1 (by omega)

lemma tryPlayLoop_core (p : List TtsEv) : ∀ (fuel : ℕ) (s : ClientState),
    TtsCore p s → TtsCore p (tryPlayLoop fuel s)
  | 0, s, h => h
  | fuel + 1, s, h => by
    unfold tryPlayLoop
    split
    · exact h
    next e heq =>
      split
      · exact tryPlayLoop_core p fuel _ (releaseStep_core p s e heq h)
      · exact h

lemma tryPlayLoop_not_blocked : ∀ (fuel : ℕ) (s : ClientState),
    s.phraseBuffers.length ≤ fuel →
    ∀ e, lookupEntry (tryPlayLoop fuel s).nextSeqToPlay
        (tryPlayLoop fuel s).phraseBuffers = some e → e.done = false
  | 0, s, hf, e, hl => by
    have hnil : s.phraseBuffers = [] :=
      List.length_eq_zero.mp (Nat.le_zero.mp hf)
    rw [show tryPlayLoop 0 s = s from rfl, hnil] at hl
    exact absurd hl (by simp [lookupEntry])
  | fuel + 1, s, hf, e, hl => by
    rw [tryPlayLoop] at hl
    split at hl
    next heq =>
      rw [hl] at heq
      exact absurd heq (by simp)
    next e' heq =>
      split at hl
      next hd =>
        have hlen := length_eraseEntry _ _ _ heq
        exact tryPlayLoop_not_blocked fuel (releaseStep s e')
          (by show (eraseEntry _ _).length ≤ fuel; omega) e hl
      next hd =>
        rw [hl] at heq
        cases heq
        simpa using hd

lemma tryPlayAudio_core (p : List TtsEv) (s : ClientState) (h : TtsCore p s) :
    TtsCore p (tryPlayAudio s) := by
  unfold tryPlayAudio
  simp only
  split
  · exact tryPlayLoop_core p _ s h
  · exact core_of_eq (playNext_playfields _).1 (playNext_playfields _).2.1
      (playNext_playfields _).2.2 (tryPlayLoop_core p _ s h)

lemma tryPlayAudio_not_blocked (s : ClientState) :
    NotBlocked (tryPlayAudio s) := by
  unfold tryPlayAudio NotBlocked
  simp only
  split
  · exact tryPlayLoop_not_blocked _ s (le_refl _)
  · intro e hl
    have hp := playNext_playfields (tryPlayLoop s.phraseBuffers.length s)
    rw [hp.1, hp.2.1] at hl
    exact tryPlayLoop_not_blocked _ s (le_refl _) e hl

lemma step_chunk (p : List TtsEv) (j b : ℕ) (s : ClientState)
    (hcore : TtsCore p s) (hnb : NotBlocked s) :
    TtsCore (p ++ [TtsEv.chunk j b]) (handleTtsChunk j b s) ∧
      NotBlocked (handleTtsChunk j b s) := by
  set old := (lookupEntry j s.phraseBuffers).getD { chunks := [], done := false }
    with hold
  set ne := ({ old with chunks := old.chunks ++ [b] } : Entry) with hne
  have hbuf : (handleTtsChunk j b s).phraseBuffers = setEntry j ne s.phraseBuffers := rfl
  have hcur : (handleTtsChunk j b s).nextSeqToPlay = s.nextSeqToPlay := rfl
  have hrel : (handleTtsChunk j b s).released = s.released := rfl
  constructor
  · constructor
    · rw [hcur]
      exact hcore.one_le
    · rw [hrel, hcur]
      exact hcore.rel
    · rw [hbuf]
      exact nodup_keys_setEntry j ne s.phraseBuffers hcore.keys
    · intro i hi ha
      rw [hcur] at hi
      rw [hbuf]
      by_cases hij : i = j
      · subst hij
        rw [lookup_setEntry_self i ne s.phraseBuffers]
        rfl
      · rw [lookup_setEntry_ne i j ne hij s.phraseBuffers]
        rw [armed_snoc_chunk, Bool.or_eq_true] at ha
        rcases ha with ha | ha
        · exact hcore.mem_of_armed i hi ha
        · exact absurd (by exact beq_iff_eq.mp ha) hij
    · intro i hm
      rw [hbuf] at hm
      rw [armed_snoc_chunk, Bool.or_eq_true]
      by_cases hij : i = j
      · right
        exact beq_iff_eq.mpr hij
      · left
        rw [lookup_setEntry_ne i j ne hij s.phraseBuffers] at hm
        exact hcore.armed_of_mem i hm
    · intro i hi hf
      rw [hcur] at hi
      rw [fired_snoc_chunk] at hf
      rw [hbuf]
      by_cases hij : i = j
      · subst hij
        obtain ⟨e0, hle0, hde0⟩ := hcore.done_of_fired i hi hf
        refine ⟨ne, lookup_setEntry_self i ne s.phraseBuffers, ?_⟩
        have : old = e0 := by rw [hold, hle0]; rfl
        rw [hne]
        show old.done = true
        rw [this]
        exact hde0
      · rw [lookup_setEntry_ne i j ne hij s.phraseBuffers]
        exact hcore.done_of_fired i hi hf
    · intro i h1 hi
      rw [hcur] at hi
      rw [armed_snoc_chunk, Bool.or_eq_true]
      exact Or.inl (hcore.armed_below i h1 hi)
  · intro e hl
    rw [hcur, hbuf] at hl
    by_cases hcj : s.nextSeqToPlay = j
    · rw [← hcj, lookup_setEntry_self _ ne s.phraseBuffers] at hl
      cases hl
      rw [hne]
      show old.done = false
      rw [hold]
      cases hlo : lookupEntry j s.phraseBuffers with
      | none => rfl
      | some e0 => exact hnb e0 (by rw [hcj]; exact hlo)
    · rw [lookup_setEntry_ne _ j ne (fun hx => hcj hx) s.phraseBuffers] at hl
      exact hnb e hl

lemma step_done (p : List TtsEv) (j : ℕ) (s : ClientState)
    (hcore : TtsCore p s) (hnb : NotBlocked s) :
    TtsCore (p ++ [TtsEv.done j]) (finalizePhrase j s) ∧
      NotBlocked (finalizePhrase j s) := by
  unfold finalizePhrase
  split
  next hl =>
    refine ⟨?_, hnb⟩
    constructor
    · exact hcore.one_le
    · exact hcore.rel
    · exact hcore.keys
    · intro i hi ha
      rw [armed_snoc_done] at ha
      exact hcore.mem_of_armed i hi ha
    · intro i hm
      rw [armed_snoc_done]
      exact hcore.armed_of_mem i hm
    · intro i hi hf
      rw [fired_snoc_done, Bool.or_eq_true, Bool.and_eq_true] at hf
      rcases hf with hf | ⟨hij, ha⟩
      · exact hcore.done_of_fired i hi hf
      · have hij' : i = j := beq_iff_eq.mp hij
        subst hij'
        have := hcore.mem_of_armed i hi ha
        rw [hl] at this
        exact absurd this (by simp)
    · intro i h1 hi
      rw [armed_snoc_done]
      exact hcore.armed_below i h1 hi
  next e hl =>
    set de := ({ e with done := true } : Entry) with hde
    set s1 := ({ s with phraseBuffers := setEntry j de s.phraseBuffers } :
      ClientState) with hs1
    have hcore1 : TtsCore (p ++ [TtsEv.done j]) s1 := by
      constructor
      · exact hcore.one_le
      · exact hcore.rel
      · exact nodup_keys_setEntry j de s.phraseBuffers hcore.keys
      · intro i hi ha
        rw [armed_snoc_done] at ha
        show (lookupEntry i (setEntry j de s.phraseBuffers)).isSome = true
        by_cases hij : i = j
        · subst hij
          rw [lookup_setEntry_self i de s.phraseBuffers]
          rfl
        · rw [lookup_setEntry_ne i j de hij s.phraseBuffers]
          exact hcore.mem_of_armed i hi ha
      · intro i hm
        rw [armed_snoc_done]
        show armed i p = true
        by_cases hij : i = j
        · subst hij
          exact hcore.armed_of_mem i (by rw [hl]; rfl)
        · rw [show s1.phraseBuffers = setEntry j de s.phraseBuffers from rfl,
            lookup_setEntry_ne i j de hij s.phraseBuffers] at hm
          exact hcore.armed_of_mem i hm
      · intro i hi hf
        rw [fired_snoc_done, Bool.or_eq_true, Bool.and_eq_true] at hf
        show ∃ e', lookupEntry i (setEntry j de s.phraseBuffers) = some e' ∧
          e'.done = true
        by_cases hij : i = j
        · subst hij
          exact ⟨de, lookup_setEntry_self i de s.phraseBuffers, rfl⟩
        · rw [lookup_setEntry_ne i j de hij s.phraseBuffers]
          rcases hf with hf | ⟨hij', _⟩
          · exact hcore.done_of_fired i hi hf
          · exact absurd (beq_iff_eq.mp hij') hij
      · intro i h1 hi
        rw [armed_snoc_done]
        exact hcore.armed_below i h1 hi
    exact ⟨tryPlayAudio_core _ s1 hcore1, tryPlayAudio_not_blocked s1⟩

lemma init_core : TtsCore [] initState := by
  constructor
  · exact le_refl 1
  · rfl
  · exact List.nodup_nil
  · intro i hi ha
    simp [armed] at ha
  · intro i hm
    simp [initState, lookupEntry] at hm
  · intro i hi hf
    simp [fired] at hf
  · intro i h1 hi
    have : i < 1 := hi
    omega

lemma init_not_blocked : NotBlocked initState := by
  intro e hl
  simp [initState, lookupEntry] at hl

lemma runTts_inv : ∀ (evs p : List TtsEv) (s : ClientState),
    TtsCore p s → NotBlocked s →
    TtsCore (p ++ evs) (runMsgs (evs.map TtsEv.toMsg) s) ∧
      NotBlocked (runMsgs (evs.map TtsEv.toMsg) s)
  | [], p, s, hc, hn => by simpa using ⟨hc, hn⟩
  | e :: rest, p, s, hc, hn => by
    have hstep : TtsCore (p ++ [e]) (handleServerMessage e.toMsg s) ∧
        NotBlocked (handleServerMessage e.toMsg s) := by
      cases e with
      | chunk j b => exact step_chunk p j b s hc hn
      | done j => exact step_done p j s hc hn
    have hrec := runTts_inv rest (p ++ [e]) (handleServerMessage e.toMsg s)
      hstep.1 hstep.2
    have hlist : p ++ [e] ++ rest = p ++ (e :: rest) := by simp
    rw [hlist] at hrec
    exact hrec

/-- C1: for any interleaving of chunk and done events of phrases `1..N`
in which every phrase gets its done marker after at least one of its
chunks, the sequence numbers moved to the playback queue are exactly
`1, 2, …, N` — a phrase completing early is held in the buffer map until
the cursor reaches it, and is released only after every lower sequence. -/
theorem C1_ordered_release (N : ℕ) (evs : List TtsEv)
    (hseq : ∀ e ∈ evs, e.seq ∈ List.range' 1 N)
    (hfired : ∀ i ∈ List.range' 1 N, fired i false evs = true) :
    (runMsgs (evs.map TtsEv.toMsg) initState).released = List.range' 1 N := by
  obtain ⟨hc, hn⟩ := runTts_inv evs [] initState init_core init_not_blocked
  rw [List.nil_append] at hc
  have h1 : 1 ≤ (runMsgs (evs.map TtsEv.toMsg) initState).nextSeqToPlay :=
    hc.one_le
  have hub : ¬ (N + 2 ≤ (runMsgs (evs.map TtsEv.toMsg) initState).nextSeqToPlay) := by
    intro hge
    have harm : armed (N + 1) evs = true :=
      hc.armed_below (N + 1) (by omega) (by omega)
    obtain ⟨b, hb⟩ := armed_mem (N + 1) evs harm
    have hbs := hseq _ hb
    rw [show (TtsEv.chunk (N + 1) b).seq = N + 1 from rfl,
      List.mem_range'_1] at hbs
    omega
  have hlb : ¬ ((runMsgs (evs.map TtsEv.toMsg) initState).nextSeqToPlay ≤ N) := by
    intro hle
    have hmem : (runMsgs (evs.map TtsEv.toMsg) initState).nextSeqToPlay ∈
        List.range' 1 N := by
      rw [List.mem_range'_1]
      omega
    have hf := hfired _ hmem
    obtain ⟨e, hle2, hde⟩ := hc.done_of_fired _ (le_refl _) hf
    have hfalse := hn e hle2
    rw [hfalse] at hde
    exact Bool.false_ne_true hde
  have hcN : (runMsgs (evs.map TtsEv.toMsg) initState).nextSeqToPlay = N + 1 := by
    omega
  rw [hc.rel, hcN, Nat.add_sub_cancel]

/-- Witness for C1: three phrases completing out of order (2, 3, then 1)
are still released exactly as 1, 2, 3. -/
theorem C1_ordered_release_witness :
    (runMsgs ([TtsEv.chunk 2 10, TtsEv.chunk 1 11, TtsEv.done 2,
        TtsEv.chunk 3 12, TtsEv.done 3, TtsEv.done 1].map TtsEv.toMsg)
      initState).released = List.range' 1 3 :=
  C1_ordered_release 3 _ (by decide) (by decide)

end VoicePrompt
